import Mathlib

/-!
Verification of the conversational client core: a shallow embedding of the
Session Reconciler (providers/Stream.tsx), the Q/A extractor, deduplicator and
counterparty-addendum splitter (components/thread/messages/qa-pairs-utils.ts),
the per-session Q/A cache (components/thread/index.tsx), and the assistant
message render gate (components/thread/messages/ai.tsx), together with proofs
about their behavior.

Strings are modeled as Lean String / List Char; all string data handled by the
client in these code paths is ASCII, so the ASCII-only case conversion and the
ASCII whitespace class used below coincide with the JavaScript operations on
the inputs that occur.
-/

namespace AgentChat

/-- JS whitespace characters (the ASCII members of the \s class and of the
String.prototype.trim whitespace set). -/
def isJsWs (c : Char) : Bool :=
  c = ' ' || c = '\t' || c = '\n' || c = '\r' || c = '\x0b' || c = '\x0c'

/-- Model of String.prototype.trim: drop whitespace from both ends. -/
def jsTrim (l : List Char) : List Char :=
  ((l.dropWhile isJsWs).reverse.dropWhile isJsWs).reverse

/-- Model of String.prototype.toLowerCase on the ASCII strings in play. -/
def lowerChars (l : List Char) : List Char :=
  l.map Char.toLower

/-- Trim and lowercase a string, as in content.trim().toLowerCase(). -/
def jsTrimLower (s : String) : String :=
  (lowerChars (jsTrim s.toList)).asString

/-- A question/answer pair, from qa-pairs-utils.ts (interface QAPair). -/
structure QAPair where
  question : String
  answer : String
deriving DecidableEq

/-- Normalization used for deduplication identity:
qaPairs[i].question.trim().toLowerCase(). -/
def normalizeQuestion (s : String) : String :=
  (lowerChars (jsTrim s.toList)).asString

/-- The deduplication key of a pair. -/
def qaKey (p : QAPair) : String :=
  normalizeQuestion p.question

/-- Index of the last occurrence of key k in the list of normalized keys.
This is the content of the Map built by the first pass of deduplicateQAPairs:
Map.set overwrites, so after the pass the map sends each key to the largest
index at which it occurs, and returns none for keys that do not occur. -/
def lastOccurrenceIndex : List String → String → Option Nat
  | [], _ => none
  | key :: rest, k =>
    match lastOccurrenceIndex rest k with
    | some i => some (i + 1)
    | none => if key = k then some 0 else none

/-- Second pass of deduplicateQAPairs: walk the list with the loop counter i,
keeping qaPairs[i] exactly when lastOccurrenceIndex.get(key) == i. -/
def keepLastPass (ks : List String) : Nat → List QAPair → List QAPair
  | _, [] => []
  | i, p :: rest =>
    if lastOccurrenceIndex ks (qaKey p) = some i then
      p :: keepLastPass ks (i + 1) rest
    else
      keepLastPass ks (i + 1) rest

/-- deduplicateQAPairs from qa-pairs-utils.ts: keep, for each distinct
normalized question, only the pair at its last occurrence index. -/
def deduplicateQAPairs (qaPairs : List QAPair) : List QAPair :=
  if qaPairs.length = 0 then qaPairs
  else keepLastPass (qaPairs.map qaKey) 0 qaPairs

/-- A conversation message as the reconciler sees it: an optional identity,
a role tag (human, ai, tool, ...), the content — recorded here in serialized
form, so that comparing the content field is comparing JSON.stringify of the
original content, which is injective on the values in play — and the optional
name field used as the opposing-party hint. -/
structure ChatMessage where
  id : Option String
  msgType : String
  content : String
  name : Option String
deriving DecidableEq

/-- The Session Reconciler, effectiveMessages from providers/Stream.tsx:
prefer the stream while loading; otherwise prefer the polled snapshot when it
is longer, or when it has the same nonzero length but its last message has
different serialized content. -/
def effectiveMessages (streamMessages polled : List ChatMessage)
    (isLoading : Bool) : List ChatMessage :=
  if isLoading then streamMessages
  else if polled.length > streamMessages.length then polled
  else if polled.length = streamMessages.length ∧ polled.length > 0 then
    if (polled[polled.length - 1]?).map (fun m => m.content) ≠
        (streamMessages[streamMessages.length - 1]?).map (fun m => m.content)
    then polled
    else streamMessages
  else streamMessages

/-- Modelled from the claim wording of the Session Reconciler contract:
streamList while the stream is active; else polledList when strictly longer;
else polledList when the lengths are equal and nonzero and the serialized
content of the final elements differs; else streamList. -/
def reconcilerSpec (streamList polledList : List ChatMessage)
    (isStreamActive : Bool) : List ChatMessage :=
  if isStreamActive then streamList
  else if streamList.length < polledList.length then polledList
  else if polledList.length = streamList.length ∧ polledList ≠ [] ∧
      (polledList.getLast?).map (fun m => m.content) ≠
        (streamList.getLast?).map (fun m => m.content) then polledList
  else streamList

/-- Case-insensitive match of a literal pattern against a prefix of the
input, returning the rest of the input. Case-insensitivity is the i flag of
the source regexes; the strings in play are ASCII, where
String.prototype.toLowerCase agrees with Char.toLower. -/
def matchLitCI : List Char → List Char → Option (List Char)
  | [], s => some s
  | _ :: _, [] => none
  | pc :: ps, c :: cs =>
    if pc.toLower = c.toLower then matchLitCI ps cs else none

/-- One or more digits, maximal munch. In every use site the pattern element
following the digits cannot match a digit, so maximal munch agrees with the
backtracking semantics of the greedy digit quantifier. -/
def matchDigits1 : List Char → Option (List Char)
  | c :: cs => if c.isDigit then some (cs.dropWhile Char.isDigit) else none
  | [] => none

/-- Greedy star over a character class with full backtracking: the longest
consumption whose continuation succeeds wins, longer attempts first, exactly
the order in which a backtracking regex engine tries a greedy star. The
continuation receives the consumed characters and the rest. -/
def manyGreedy (p : Char → Bool) (k : List Char → List Char → Option α) :
    List Char → Option α
  | [] => k [] []
  | c :: cs =>
    if p c then
      match manyGreedy p (fun cap rest => k (c :: cap) rest) cs with
      | some v => some v
      | none => k [] (c :: cs)
    else k [] (c :: cs)

/-- Greedy plus over a character class: one mandatory character, then the
greedy star. -/
def plus1Greedy (p : Char → Bool) (k : List Char → List Char → Option α) :
    List Char → Option α
  | [] => none
  | c :: cs =>
    if p c then manyGreedy p (fun cap rest => k (c :: cap) rest) cs else none

/-- Lazy star over a character class with full backtracking: the shortest
consumption whose continuation succeeds wins, shorter attempts first. -/
def manyLazy (p : Char → Bool) (k : List Char → List Char → Option α) :
    List Char → Option α
  | [] => k [] []
  | c :: cs =>
    match k [] (c :: cs) with
    | some v => some v
    | none =>
      if p c then manyLazy p (fun cap rest => k (c :: cap) rest) cs else none

/-- Lazy plus over a character class: one mandatory character, then the lazy
star. -/
def plus1Lazy (p : Char → Bool) (k : List Char → List Char → Option α) :
    List Char → Option α
  | [] => none
  | c :: cs =>
    if p c then manyLazy p (fun cap rest => k (c :: cap) rest) cs else none

/-- The party alternation (buyer|seller|opposing party) of both header
regexes, alternatives tried in order; the returned capture is already
lowercased, as both call sites immediately lowercase the captured group. The
alternatives share no prefix, so the deterministic first-match rule agrees
with the regex alternation. -/
def matchPartyAlt (s : List Char) : Option (String × List Char) :=
  match matchLitCI "buyer".toList s with
  | some rest => some ("buyer", rest)
  | none =>
    match matchLitCI "seller".toList s with
    | some rest => some ("seller", rest)
    | none =>
      match matchLitCI "opposing party".toList s with
      | some rest => some ("opposing party", rest)
      | none => none

/-- The full-mode header regex matched at one position, returning the
captured party. -/
def fullHeaderAt (s : List Char) : Option String := do
  let s1 ← matchLitCI "here are ".toList s
  let s2 ← matchDigits1 s1
  let s3 ← matchLitCI " vetting answers from the matched ".toList s2
  let (party, s4) ← matchPartyAlt s3
  let _ ← matchLitCI ":".toList s4
  pure party

/-- String.prototype.match without the g flag: the leftmost position at which
the full-mode header matches, with its captured party. -/
def searchFullHeader : List Char → Option String
  | [] => none
  | s@(_ :: rest) =>
    match fullHeaderAt s with
    | some party => some party
    | none => searchFullHeader rest

/-- The teaser-mode header regex matched at one position: the literal parts,
the party alternation, the digits, and the optional plural s before the final
dot (tried with the s first, as a greedy optional). -/
def teaserHeaderAt (s : List Char) : Option String := do
  let s1 ← matchLitCI "the matched ".toList s
  let (party, s2) ← matchPartyAlt s1
  let s3 ← matchLitCI " has answered ".toList s2
  let s4 ← matchDigits1 s3
  let s5 ← matchLitCI " vetting question".toList s4
  match matchLitCI "s.".toList s5 with
  | some _ => pure party
  | none =>
    match matchLitCI ".".toList s5 with
    | some _ => pure party
    | none => none

/-- Leftmost match of the teaser-mode header. -/
def searchTeaserHeader : List Char → Option String
  | [] => none
  | s@(_ :: rest) =>
    match teaserHeaderAt s with
    | some party => some party
    | none => searchTeaserHeader rest

/-- The character class of the question group: any character but a star. -/
def notStarChar (c : Char) : Bool := !(c = '*')

/-- The character class of the answer lines: neither newline nor star. -/
def notNlStarChar (c : Char) : Bool := !(c = '\n') && !(c = '*')

/-- Maximal run of characters satisfying p, with the rest. -/
def takeRun (p : Char → Bool) : List Char → List Char × List Char
  | [] => ([], [])
  | c :: cs =>
    if p c then
      match takeRun p cs with
      | (r, rest) => (c :: r, rest)
    else ([], c :: cs)

/-- The negative lookahead of the answer continuation lines: true when the
input starts with two stars, one or more digits and a dot, i.e. with the
opening of the next numbered entry. -/
def isQaNumStart : List Char → Bool
  | '*' :: '*' :: rest =>
    !(rest.takeWhile Char.isDigit).isEmpty &&
      (match rest.dropWhile Char.isDigit with
       | '.' :: _ => true
       | _ => false)
  | _ => false

/-- The answer continuation: zero or more groups of a newline — not followed
by the opening of the next numbered entry — and a nonempty line of notNlStar
characters. The group sits at the end of the entry pattern, so the greedy
star is maximal munch with no backtracking into it. Fuel bounds the
recursion; every iteration consumes at least two characters, so a fuel of
the input length is sufficient. -/
def answerContGroup : Nat → List Char → List Char × List Char
  | 0, s => ([], s)
  | fuel + 1, s =>
    match s with
    | '\n' :: rest =>
      if isQaNumStart rest then ([], s)
      else
        match takeRun notNlStarChar rest with
        | ([], _) => ([], s)
        | (run, rest2) =>
          match answerContGroup fuel rest2 with
          | (more, rest3) => ('\n' :: (run ++ more), rest3)
    | _ => ([], s)

/-- The whole answer group: a nonempty first line of notNlStar characters
followed by the continuation lines. -/
def answerGroup (s : List Char) : Option (List Char × List Char) :=
  match takeRun notNlStarChar s with
  | ([], _) => none
  | (run, rest) =>
    match answerContGroup rest.length rest with
    | (more, rest2) => some (run ++ more, rest2)

/-- One numbered full-mode entry matched at one position: two stars, digits,
a dot, greedy whitespace, the greedily captured question of non-star
characters, two stars, greedy whitespace, a newline, and the answer group.
Returns the question capture, the answer capture and the rest of the input
after the match. -/
def qaMatchAt (s : List Char) :
    Option (List Char × List Char × List Char) := do
  let s1 ← matchLitCI "**".toList s
  let s2 ← matchDigits1 s1
  let s3 ← matchLitCI ".".toList s2
  manyGreedy isJsWs (fun _ t1 =>
    plus1Greedy notStarChar (fun qcap t2 =>
      match matchLitCI "**".toList t2 with
      | none => none
      | some t3 =>
        manyGreedy isJsWs (fun _ t4 =>
          match t4 with
          | '\n' :: t5 =>
            match answerGroup t5 with
            | some (acap, t6) => some (qcap, acap, t6)
            | none => none
          | _ => none) t3) t1) s3

/-- Leftmost full-mode entry match at or after a position. -/
def qaFindFrom : List Char → Option (List Char × List Char × List Char)
  | [] => none
  | s@(_ :: rest) =>
    match qaMatchAt s with
    | some r => some r
    | none => qaFindFrom rest

/-- The exec loop over the full-mode entry regex with the g flag: repeatedly
take the leftmost match at or after the end of the previous match, trimming
both captures. Every match consumes at least four characters, so a fuel of
the input length is sufficient. -/
def qaLoop : Nat → List Char → List QAPair
  | 0, _ => []
  | fuel + 1, s =>
    match qaFindFrom s with
    | none => []
    | some (q, a, rest) =>
      ⟨(jsTrim q).asString, (jsTrim a).asString⟩ :: qaLoop fuel rest

/-- All full-mode entries of a text, in order. -/
def qaPairsOf (s : List Char) : List QAPair := qaLoop s.length s

/-- One numbered teaser-mode entry matched at one position: two stars,
digits, a dot, greedy whitespace, the lazily captured question of non-star
characters, and two stars. -/
def questionMatchAt (s : List Char) : Option (List Char × List Char) := do
  let s1 ← matchLitCI "**".toList s
  let s2 ← matchDigits1 s1
  let s3 ← matchLitCI ".".toList s2
  manyGreedy isJsWs (fun _ t1 =>
    plus1Lazy notStarChar (fun qcap t2 =>
      (matchLitCI "**".toList t2).map (fun t3 => (qcap, t3))) t1) s3

/-- Leftmost teaser-mode entry match at or after a position. -/
def questionFindFrom : List Char → Option (List Char × List Char)
  | [] => none
  | s@(_ :: rest) =>
    match questionMatchAt s with
    | some r => some r
    | none => questionFindFrom rest

/-- The exec loop over the teaser-mode entry regex with the g flag; answers
are empty in teaser mode. -/
def questionLoop : Nat → List Char → List QAPair
  | 0, _ => []
  | fuel + 1, s =>
    match questionFindFrom s with
    | none => []
    | some (q, rest) =>
      ⟨(jsTrim q).asString, ""⟩ :: questionLoop fuel rest

/-- All teaser-mode entries of a text, in order. -/
def questionsOf (s : List Char) : List QAPair := questionLoop s.length s

/-- The literal marker phrase of the counterparty addendum. -/
def cpMarker : List Char :=
  "the counterparty has answered your question:".toList

/-- Case-insensitive substring test. -/
def containsLitCI (pat : List Char) : List Char → Bool
  | [] => (matchLitCI pat []).isSome
  | s@(_ :: rest) => (matchLitCI pat s).isSome || containsLitCI pat rest

/-- String.prototype.lastIndexOf of the two-newline separator: the position
of its last occurrence. -/
def lastDoubleNewlinePos : List Char → Option Nat
  | '\n' :: '\n' :: rest =>
    match lastDoubleNewlinePos ('\n' :: rest) with
    | some i => some (i + 1)
    | none => some 0
  | _ :: rest =>
    match lastDoubleNewlinePos rest with
    | some i => some (i + 1)
    | none => none
  | [] => none

/-- Case-insensitive anchored prefix test. -/
def startsWithCI (pat s : List Char) : Bool := (matchLitCI pat s).isSome

/-- extractCounterpartyMessage from qa-pairs-utils.ts: the test of the
counterparty pattern — since the dot-all tail always matches, the test is
containment of the two newlines followed by the marker — then the segment
after the last two-newline separator, trimmed, provided it starts with the
marker. -/
def extractCounterpartyMessage (content : String) : Option String :=
  let cs := content.toList
  if containsLitCI ('\n' :: '\n' :: cpMarker) cs then
    match lastDoubleNewlinePos cs with
    | some i =>
      if startsWithCI cpMarker (jsTrim (cs.drop (i + 2))) then
        some (jsTrim (cs.drop (i + 2))).asString
      else none
    | none => none
  else none

/-- The text that Q/A parsing operates on: when a counterparty addendum is
present, the substring before the last two-newline separator, else the whole
content. -/
def qaContentOf (content : String) : List Char :=
  match extractCounterpartyMessage content with
  | some _ =>
    match lastDoubleNewlinePos content.toList with
    | some i => content.toList.take i
    | none => content.toList
  | none => content.toList

/-- The two counterparty identities of type OpposingParty. -/
inductive OpposingParty where
  | buyer
  | seller
deriving DecidableEq

/-- The two disclosure modes of type QAMode: full is the disclosed mode and
teaser the withheld mode. -/
inductive QAMode where
  | full
  | teaser
deriving DecidableEq

/-- normalizeOpposingParty from qa-pairs-utils.ts, on an optional string
hint. -/
def normalizeOpposingParty : Option String → Option OpposingParty
  | none => none
  | some s =>
    let v := (lowerChars (jsTrim s.toList)).asString
    if v = "buyer" then some .buyer
    else if v = "seller" then some .seller
    else none

/-- Counterparty identity resolution of both branches of the parser: the
lowercased captured party when concrete, else the normalized hint, else the
buyer fallback. -/
def resolveParty (captured : String) (hint : Option String) : OpposingParty :=
  if captured = "buyer" then .buyer
  else if captured = "seller" then .seller
  else (normalizeOpposingParty hint).getD .buyer

/-- The result record of the Q/A extractor. -/
structure ParsedQA where
  qaPairs : List QAPair
  opposingParty : OpposingParty
  mode : QAMode
deriving DecidableEq

/-- parseQAPairsFromContent from qa-pairs-utils.ts: strip the counterparty
addendum if present, try the full-mode header first and collect its entries,
else try the teaser-mode header and collect its entries; a header whose entry
loop collects nothing yields none. -/
def parseQAPairsFromContent (content : String) (hint : Option String) :
    Option ParsedQA :=
  let qc := qaContentOf content
  match searchFullHeader qc with
  | some captured =>
    let pairs := qaPairsOf qc
    if pairs.isEmpty then none
    else some ⟨pairs, resolveParty captured hint, .full⟩
  | none =>
    match searchTeaserHeader qc with
    | some captured =>
      let pairs := questionsOf qc
      if pairs.isEmpty then none
      else some ⟨pairs, resolveParty captured hint, .teaser⟩
    | none => none

/-- The scan of detectedQAPairs in components/thread/index.tsx over the
reversed reconciled list: take the most recent ai message whose content
parses, and deduplicate its pairs. -/
def detectQAPairsAux : List ChatMessage → Option ParsedQA
  | [] => none
  | m :: rest =>
    if m.msgType = "ai" then
      match parseQAPairsFromContent m.content m.name with
      | some parsed =>
        some { parsed with qaPairs := deduplicateQAPairs parsed.qaPairs }
      | none => detectQAPairsAux rest
    else detectQAPairsAux rest

/-- detectedQAPairs: scan the reconciled list from the most recent message
backward. -/
def detectQAPairs (messages : List ChatMessage) : Option ParsedQA :=
  detectQAPairsAux messages.reverse

/-- The effect that maintains cachedQAPairs: when a detection is present it
overwrites the cache, otherwise the cache is left untouched. -/
def updateCachedQAPairs (cache detected : Option ParsedQA) :
    Option ParsedQA :=
  match detected with
  | some d => some d
  | none => cache

/-- The value the cache effect writes on a thread-key change:
setCachedQAPairs null. -/
def clearedQACache : Option ParsedQA := none

/-- The render outcomes of the AssistantMessage component that matter here:
nothing at all, only the counterparty addendum, or the full content. -/
inductive AssistantRender where
  | hidden
  | addendumOnly (text : String)
  | fullText (text : String)
deriving DecidableEq

/-- The early-return chain of AssistantMessage in
components/thread/messages/ai.tsx: tool results render nothing; a content
whose trimmed lowercased text is empty or the literal null renders nothing;
a Q/A-bearing content with a counterparty addendum renders only the
addendum; a Q/A-bearing content without one renders nothing; anything else
renders the content. -/
def renderAssistantMessage (m : ChatMessage) : AssistantRender :=
  if m.msgType = "tool" then .hidden
  else if jsTrimLower m.content = "" ∨ jsTrimLower m.content = "null" then
    .hidden
  else
    match parseQAPairsFromContent m.content none,
        extractCounterpartyMessage m.content with
    | some _, some cp => .addendumOnly cp
    | some _, none => .hidden
    | none, _ => .fullText m.content

/-- The per-message fingerprint taken by refreshHistory before updating the
polled snapshot: JSON.stringify of the (id, content) projection of each
message. The stringification is injective on these projections, so the hash
string is modeled by the projected list itself. -/
def pollFingerprint (msgs : List ChatMessage) :
    List (Option String × String) :=
  msgs.map fun m => (m.id, m.content)

/-- An in-flight history request: the thread key captured by the
refreshHistory closure when the fetch was issued, and the message list of the
latest checkpoint that its response will deliver. -/
structure PollRequest where
  issuedKey : String
  response : List ChatMessage
deriving DecidableEq

/-- The session-scoped state of StreamSession relevant to polling: the
current thread key, the polled snapshot and its change-detection fingerprint
(lastPollRef.current, where none models the empty reset string), the set of
in-flight history fetches, and a ghost field recording under which thread key
the currently-held polled snapshot was requested. -/
structure SessionState where
  threadId : Option String
  polledMessages : Option (List ChatMessage)
  lastPoll : Option (List (Option String × String))
  inFlight : List PollRequest
  polledIssueKey : Option String
deriving DecidableEq

/-- The events that drive the polling state: refreshHistory is invoked (the
fetch departs), an in-flight fetch resolves, or the thread key changes. -/
inductive SessionEvent where
  | issuePoll (response : List ChatMessage)
  | resolvePoll (r : PollRequest)
  | changeThread (k : Option String)
deriving DecidableEq

/-- One step of the polling state machine, read off StreamSession:
issuePoll models the guard and departure of refreshHistory (if there is no
threadId it returns; otherwise the fetch leaves carrying the closure's
threadId); resolvePoll models the rest of refreshHistory after the response
arrives (a nonempty message list whose fingerprint differs from
lastPollRef.current is written into polledMessages — with no check that the
issuing thread key is still current); changeThread models onThreadId plus the
effect on [threadId] that clears polledMessages and lastPollRef, while the
in-flight fetches are neither aborted nor invalidated. -/
def sessionStep (s : SessionState) : SessionEvent → SessionState
  | .issuePoll resp =>
    match s.threadId with
    | none => s
    | some k => { s with inFlight := s.inFlight ++ [⟨k, resp⟩] }
  | .resolvePoll r =>
    if r ∈ s.inFlight then
      if 0 < r.response.length ∧ some (pollFingerprint r.response) ≠ s.lastPoll
      then
        { s with
          inFlight := s.inFlight.erase r
          polledMessages := some r.response
          lastPoll := some (pollFingerprint r.response)
          polledIssueKey := some r.issuedKey }
      else { s with inFlight := s.inFlight.erase r }
    else s
  | .changeThread k =>
    { s with
      threadId := k
      polledMessages := none
      lastPoll := none
      polledIssueKey := none }

/-- The initial session state: no thread, no polled snapshot, no fetches. -/
def initialSession : SessionState :=
  ⟨none, none, none, [], none⟩

/-- Run a sequence of session events from a state. -/
def runSession (s : SessionState) (evs : List SessionEvent) : SessionState :=
  evs.foldl sessionStep s

/-- The event trace in which a poll for thread t1 is still in flight when the
session key changes to t2, and resolves afterwards. -/
def staleTrace (m : ChatMessage) : List SessionEvent :=
  [.changeThread (some "t1"), .issuePoll [m], .changeThread (some "t2"),
   .resolvePoll ⟨"t1", [m]⟩]

/-- The last two-newline-separated segment of a text: the part after the
last separator, or the whole text when there is no separator. -/
def lastSegmentOf (content : String) : List Char :=
  match lastDoubleNewlinePos content.toList with
  | some i => content.toList.drop (i + 2)
  | none => content.toList

/-- A text containing a full-mode header, one parseable numbered entry whose
answer text is blank, and a teaser-mode header. -/
def fullTeaserText : String :=
  "here are 1 vetting answers from the matched buyer:\n**1. Q?**\n *The matched buyer has answered 1 vetting question.*"

/-- The addendum-isolation example text of the spec. -/
def addendumText : String :=
  "**1. Q?**\nA\n\nthe counterparty has answered your question: X"

/- ===== end of definitions, start of lemmas and theorems ===== -/

/-- If the last occurrence index of k is i then k occurs at index i. -/
theorem lastOccurrenceIndex_getElem {ks : List String} {k : String} {i : Nat}
    (h : lastOccurrenceIndex ks k = some i) : ks[i]? = some k := by
  induction ks generalizing i with
  | nil => simp [lastOccurrenceIndex] at h
  | cons key rest ih =>
    simp only [lastOccurrenceIndex] at h
    cases hrest : lastOccurrenceIndex rest k with
    | some j =>
      rw [hrest] at h
      cases h
      simpa using ih hrest
    | none =>
      rw [hrest] at h
      by_cases hk : key = k
      · rw [if_pos hk] at h
        cases h
        simp [hk]
      · rw [if_neg hk] at h
        cases h

/-- If the last occurrence index of k is none then k occurs nowhere. -/
theorem lastOccurrenceIndex_none {ks : List String} {k : String}
    (h : lastOccurrenceIndex ks k = none) : ∀ j : Nat, ks[j]? ≠ some k := by
  induction ks with
  | nil => intro j; simp
  | cons key rest ih =>
    intro j
    simp only [lastOccurrenceIndex] at h
    cases hrest : lastOccurrenceIndex rest k with
    | some i => rw [hrest] at h; cases h
    | none =>
      rw [hrest] at h
      by_cases hk : key = k
      · rw [if_pos hk] at h; cases h
      · cases j with
        | zero => simpa using hk
        | succ j => simpa using ih hrest j

/-- No occurrence of k lies strictly beyond its last occurrence index. -/
theorem lastOccurrenceIndex_last {ks : List String} {k : String} {i : Nat}
    (h : lastOccurrenceIndex ks k = some i) :
    ∀ j : Nat, i < j → ks[j]? ≠ some k := by
  induction ks generalizing i with
  | nil => simp [lastOccurrenceIndex] at h
  | cons key rest ih =>
    intro j hij
    simp only [lastOccurrenceIndex] at h
    cases hrest : lastOccurrenceIndex rest k with
    | some m =>
      rw [hrest] at h
      cases h
      cases j with
      | zero => omega
      | succ j =>
        have := ih hrest j (by omega)
        simpa using this
    | none =>
      rw [hrest] at h
      by_cases hk : key = k
      · rw [if_pos hk] at h
        cases h
        cases j with
        | zero => omega
        | succ j => simpa using lastOccurrenceIndex_none hrest j
      · rw [if_neg hk] at h
        cases h

/-- Every key that occurs has a last occurrence index. -/
theorem lastOccurrenceIndex_isSome_of_mem {ks : List String} {k : String}
    (h : k ∈ ks) : ∃ i, lastOccurrenceIndex ks k = some i := by
  induction ks with
  | nil => cases h
  | cons key rest ih =>
    simp only [lastOccurrenceIndex]
    cases hrest : lastOccurrenceIndex rest k with
    | some i => exact ⟨i + 1, rfl⟩
    | none =>
      rcases List.mem_cons.mp h with rfl | hmem
      · exact ⟨0, by simp⟩
      · obtain ⟨i, hi⟩ := ih hmem
        rw [hi] at hrest
        cases hrest

/-- The second pass keeps a subsequence of its input. -/
theorem keepLastPass_sublist (ks : List String) (i : Nat) (l : List QAPair) :
    (keepLastPass ks i l).Sublist l := by
  induction l generalizing i with
  | nil => simp [keepLastPass]
  | cons p rest ih =>
    simp only [keepLastPass]
    split
    · exact (ih (i + 1)).cons₂ p
    · exact (ih (i + 1)).cons p

/-- Every element kept by the second pass sits at the last occurrence index of
its key, offset by the initial loop counter. -/
theorem mem_keepLastPass {ks : List String} {i : Nat} {l : List QAPair}
    {p : QAPair} (h : p ∈ keepLastPass ks i l) :
    ∃ d, l[d]? = some p ∧ lastOccurrenceIndex ks (qaKey p) = some (i + d) := by
  induction l generalizing i with
  | nil => simp [keepLastPass] at h
  | cons q rest ih =>
    simp only [keepLastPass] at h
    split at h
    case isTrue hq =>
      rcases List.mem_cons.mp h with rfl | h2
      · exact ⟨0, by simp, by simpa using hq⟩
      · obtain ⟨d, hd, hlast⟩ := ih h2
        refine ⟨d + 1, by simpa using hd, ?_⟩
        rw [show i + (d + 1) = (i + 1) + d by omega]
        exact hlast
    case isFalse =>
      obtain ⟨d, hd, hlast⟩ := ih h
      refine ⟨d + 1, by simpa using hd, ?_⟩
      rw [show i + (d + 1) = (i + 1) + d by omega]
      exact hlast

/-- An input element sitting at the last occurrence index of its key is kept
by the second pass. -/
theorem keepLastPass_mem_of {ks : List String} {i d : Nat} {l : List QAPair}
    {p : QAPair} (hd : l[d]? = some p)
    (hlast : lastOccurrenceIndex ks (qaKey p) = some (i + d)) :
    p ∈ keepLastPass ks i l := by
  induction l generalizing i d with
  | nil => simp at hd
  | cons q rest ih =>
    cases d with
    | zero =>
      have hq : q = p := by simpa using hd
      subst hq
      simp only [keepLastPass]
      rw [if_pos (by simpa using hlast)]
      exact List.mem_cons_self _ _
    | succ d =>
      have hrec : p ∈ keepLastPass ks (i + 1) rest := by
        refine ih (by simpa using hd) ?_
        rw [show (i + 1) + d = i + (d + 1) by omega]
        exact hlast
      simp only [keepLastPass]
      split
      · exact List.mem_cons_of_mem _ hrec
      · exact hrec

/-- The keys of the pairs kept by the second pass are pairwise distinct. -/
theorem nodup_keys_keepLastPass (ks : List String) (i : Nat)
    (l : List QAPair) : ((keepLastPass ks i l).map qaKey).Nodup := by
  induction l generalizing i with
  | nil => simp [keepLastPass]
  | cons q rest ih =>
    simp only [keepLastPass]
    split
    case isTrue hq =>
      simp only [List.map_cons, List.nodup_cons]
      refine ⟨?_, ih (i + 1)⟩
      intro hmem
      obtain ⟨r, hr, hkey⟩ := List.mem_map.mp hmem
      obtain ⟨d, _, hlast⟩ := mem_keepLastPass hr
      rw [hkey, hq] at hlast
      simp only [Option.some.injEq] at hlast
      omega
    case isFalse => exact ih (i + 1)

/-- When every element already sits at the last occurrence index of its key,
the second pass keeps everything. -/
theorem keepLastPass_eq_self {ks : List String} {i : Nat} {l : List QAPair}
    (h : ∀ d p, l[d]? = some p →
      lastOccurrenceIndex ks (qaKey p) = some (i + d)) :
    keepLastPass ks i l = l := by
  induction l generalizing i with
  | nil => simp [keepLastPass]
  | cons q rest ih =>
    simp only [keepLastPass]
    rw [if_pos (by simpa using h 0 q (by simp))]
    congr 1
    refine ih fun d p hd => ?_
    rw [show (i + 1) + d = i + (d + 1) by omega]
    exact h (d + 1) p (by simpa using hd)

/-- The deduplicated list is a subsequence of the input. -/
theorem dedup_sublist (l : List QAPair) : (deduplicateQAPairs l).Sublist l := by
  by_cases hl : l.length = 0
  · rw [deduplicateQAPairs, if_pos hl]
  · rw [deduplicateQAPairs, if_neg hl]
    exact keepLastPass_sublist _ _ _

/-- Normalized questions are pairwise distinct in the deduplicated list. -/
theorem dedup_nodup_keys (l : List QAPair) :
    ((deduplicateQAPairs l).map qaKey).Nodup := by
  by_cases hl : l.length = 0
  · have : l = [] := List.length_eq_zero.mp hl
    subst this
    simp [deduplicateQAPairs]
  · rw [deduplicateQAPairs, if_neg hl]
    exact nodup_keys_keepLastPass _ _ _

/-- Every normalized question of the input is represented in the output. -/
theorem dedup_covers {l : List QAPair} {p : QAPair} (hp : p ∈ l) :
    ∃ q ∈ deduplicateQAPairs l, qaKey q = qaKey p := by
  have hki : qaKey p ∈ l.map qaKey := List.mem_map_of_mem _ hp
  obtain ⟨i, hi⟩ := lastOccurrenceIndex_isSome_of_mem hki
  have hgi := lastOccurrenceIndex_getElem hi
  rw [List.getElem?_map] at hgi
  cases hq : l[i]? with
  | none => rw [hq] at hgi; cases hgi
  | some q =>
    rw [hq] at hgi
    have hkq : qaKey q = qaKey p := by simpa using hgi
    have hne : l ≠ [] := by
      intro h0
      subst h0
      simp at hq
    refine ⟨q, ?_, hkq⟩
    rw [deduplicateQAPairs, if_neg (by simpa [List.length_eq_zero] using hne)]
    refine keepLastPass_mem_of hq ?_
    rw [Nat.zero_add, hkq]
    exact hi

/-- Every output entry is the pair at the last occurrence of its normalized
question: no later input position carries the same normalized question. -/
theorem dedup_last_content {l : List QAPair} {q : QAPair}
    (hq : q ∈ deduplicateQAPairs l) :
    ∃ i, l[i]? = some q ∧
      ∀ j : Nat, i < j → ∀ r, l[j]? = some r → qaKey r ≠ qaKey q := by
  by_cases hl : l.length = 0
  · have : l = [] := List.length_eq_zero.mp hl
    subst this
    simp [deduplicateQAPairs] at hq
  · rw [deduplicateQAPairs, if_neg hl] at hq
    obtain ⟨d, hd, hlast⟩ := mem_keepLastPass hq
    rw [Nat.zero_add] at hlast
    refine ⟨d, hd, fun j hij r hr hkey => ?_⟩
    refine lastOccurrenceIndex_last hlast j hij ?_
    rw [List.getElem?_map, hr]
    simp [hkey]

/-- A list whose normalized questions are already pairwise distinct passes
through deduplication unchanged. -/
theorem dedup_eq_self_of_nodup_keys {l : List QAPair}
    (h : (l.map qaKey).Nodup) : deduplicateQAPairs l = l := by
  by_cases hl : l.length = 0
  · rw [deduplicateQAPairs, if_pos hl]
  · rw [deduplicateQAPairs, if_neg hl]
    apply keepLastPass_eq_self
    intro d p hd
    rw [Nat.zero_add]
    have hk : (l.map qaKey)[d]? = some (qaKey p) := by
      rw [List.getElem?_map, hd]
      rfl
    have hmem : qaKey p ∈ l.map qaKey := List.getElem?_mem hk
    obtain ⟨j, hj⟩ := lastOccurrenceIndex_isSome_of_mem hmem
    have hgj := lastOccurrenceIndex_getElem hj
    have hdlen : d < (l.map qaKey).length := by
      by_contra hge
      rw [List.getElem?_eq_none (Nat.le_of_not_lt hge)] at hk
      cases hk
    have hjd : d = j := List.getElem?_inj hdlen h (by rw [hk, hgj])
    rw [← hjd] at hj
    exact hj

/-- C2 counterexample: on the questions [Are pets allowed?, Budget?,
are pets allowed?] with answers [, , Yes], deduplicateQAPairs returns
[(Budget?, ), (are pets allowed?, Yes)] — the surviving entry for the repeated
question carries the question text of its last occurrence and sits at the
last-occurrence slot, after Budget? — and not the output
[(Are pets allowed?, Yes), (Budget?, )] stated by the claim. -/
theorem dedup_first_appearance_counterexample :
    deduplicateQAPairs
        [⟨"Are pets allowed?", ""⟩, ⟨"Budget?", ""⟩,
         ⟨"are pets allowed?", "Yes"⟩] =
      [⟨"Budget?", ""⟩, ⟨"are pets allowed?", "Yes"⟩] ∧
    deduplicateQAPairs
        [⟨"Are pets allowed?", ""⟩, ⟨"Budget?", ""⟩,
         ⟨"are pets allowed?", "Yes"⟩] ≠
      [⟨"Are pets allowed?", "Yes"⟩, ⟨"Budget?", ""⟩] := by
  decide

/-- C2 (amended): the Deduplicator returns a subsequence of its input holding
exactly one entry per distinct normalized question (trim + case-fold); each
surviving entry is the input pair at that question's LAST occurrence — it
carries the question and answer text of the last occurrence and sits at the
last-occurrence slot, not the first-appearance slot — and the example input
yields [(Budget?, ), (are pets allowed?, Yes)]. -/
theorem dedup_keeps_last_occurrences (l : List QAPair) :
    (deduplicateQAPairs l).Sublist l ∧
    ((deduplicateQAPairs l).map qaKey).Nodup ∧
    (∀ p ∈ l, ∃ q ∈ deduplicateQAPairs l, qaKey q = qaKey p) ∧
    (∀ q ∈ deduplicateQAPairs l, ∃ i, l[i]? = some q ∧
      ∀ j : Nat, i < j → ∀ r, l[j]? = some r → qaKey r ≠ qaKey q) ∧
    deduplicateQAPairs
        [⟨"Are pets allowed?", ""⟩, ⟨"Budget?", ""⟩,
         ⟨"are pets allowed?", "Yes"⟩] =
      [⟨"Budget?", ""⟩, ⟨"are pets allowed?", "Yes"⟩] :=
  ⟨dedup_sublist l, dedup_nodup_keys l, fun _ hp => dedup_covers hp,
   fun _ hq => dedup_last_content hq, by decide⟩

/-- Witness for C2 (amended): instantiating the theorem on a concrete
two-element input with a repeated normalized question. -/
theorem dedup_keeps_last_occurrences_witness :
    ∃ q ∈ deduplicateQAPairs [⟨"A?", "x"⟩, ⟨"a?", "y"⟩],
      qaKey q = qaKey ⟨"A?", "x"⟩ :=
  (dedup_keeps_last_occurrences [⟨"A?", "x"⟩, ⟨"a?", "y"⟩]).2.2.1
    ⟨"A?", "x"⟩ (by decide)

/-- C9: the Deduplicator is idempotent — applying deduplicateQAPairs to its
own output returns that output unchanged, for every input sequence. -/
theorem dedup_idempotent (l : List QAPair) :
    deduplicateQAPairs (deduplicateQAPairs l) = deduplicateQAPairs l :=
  dedup_eq_self_of_nodup_keys (dedup_nodup_keys l)

/-- C1: for every pair of message lists and every value of the streaming flag,
effectiveMessages computes exactly the reconciliation the contract states:
streamList while the stream is active, polledList when strictly longer,
polledList when equally long, nonempty and differing in the serialized content
of the final element, and streamList otherwise. -/
theorem reconciler_matches_spec (s p : List ChatMessage) (b : Bool) :
    effectiveMessages s p b = reconcilerSpec s p b := by
  cases b with
  | true => simp [effectiveMessages, reconcilerSpec]
  | false =>
    unfold effectiveMessages reconcilerSpec
    have hfalse : ¬ (false = true) := by simp
    rw [if_neg hfalse, if_neg hfalse]
    simp only [List.getLast?_eq_getElem?, gt_iff_lt]
    by_cases hlt : s.length < p.length
    · rw [if_pos hlt, if_pos hlt]
    · rw [if_neg hlt, if_neg hlt]
      by_cases h3 : p.length = s.length ∧ 0 < p.length
      · rw [if_pos h3]
        have hpne : p ≠ [] := by
          intro h
          subst h
          exact absurd h3.2 (by simp)
        by_cases hne : (p[p.length - 1]?).map (fun m => m.content) ≠
            (s[s.length - 1]?).map (fun m => m.content)
        · rw [if_pos hne, if_pos ⟨h3.1, hpne, hne⟩]
        · rw [if_neg hne, if_neg fun hc => hne hc.2.2]
      · rw [if_neg h3, if_neg ?_]
        intro hc
        exact h3 ⟨hc.1, List.length_pos.mpr hc.2.1⟩

/-- C3 counterexample: with an empty stream list and a one-message polled
list, the reconciled output has length 1 while the stream is idle; the update
that flips isStreamActive to true drops it to length 0 — the reconciled
length is not monotonically non-decreasing, and the already-displayed turn
disappears. -/
theorem reconciler_not_monotone_counterexample :
    ¬ ((effectiveMessages [] [⟨some "m1", "ai", "hi", none⟩] false).length ≤
       (effectiveMessages [] [⟨some "m1", "ai", "hi", none⟩] true).length) := by
  decide

/-- C3 (amended): the reconciled output is never shorter than the current
streamList — a lower bound that holds for every state — but its length is not
monotonic across arbitrary updates of the inputs: an update that activates
the stream, or shrinks a source list, can strictly shrink the output and
remove displayed turns. -/
theorem reconciler_length_lower_bound (s p : List ChatMessage) (b : Bool) :
    s.length ≤ (effectiveMessages s p b).length := by
  unfold effectiveMessages
  split
  · exact Nat.le_refl _
  · split
    · omega
    · split
      · split
        · omega
        · exact Nat.le_refl _
      · exact Nat.le_refl _

/-- C4 (code bug): after the trace changeThread t1, issuePoll, changeThread
t2, resolvePoll, the resolved fetch that was issued under t1 writes its
messages into polledMessages even though the thread key is now t2 — the state
machine read off StreamSession reaches a state in which the polled snapshot
was delivered by a poll issued under an earlier session key, which the claim
says is unreachable. The reset of lastPollRef on key change does not prevent
it: the fingerprint of a nonempty response always differs from the reset
value, so the guard passes. -/
theorem stale_poll_applied_after_thread_change :
    (runSession initialSession
        (staleTrace ⟨some "m1", "ai", "hello", none⟩)).polledMessages =
      some [⟨some "m1", "ai", "hello", none⟩] ∧
    (runSession initialSession
        (staleTrace ⟨some "m1", "ai", "hello", none⟩)).polledIssueKey =
      some "t1" ∧
    (runSession initialSession
        (staleTrace ⟨some "m1", "ai", "hello", none⟩)).threadId =
      some "t2" := by
  decide

/-- When no ai message of the list parses to an extraction, the backward scan
finds nothing. -/
theorem detectQAPairsAux_eq_none {msgs : List ChatMessage}
    (h : ∀ m ∈ msgs, m.msgType = "ai" →
      parseQAPairsFromContent m.content m.name = none) :
    detectQAPairsAux msgs = none := by
  induction msgs with
  | nil => rfl
  | cons m rest ih =>
    simp only [detectQAPairsAux]
    by_cases hm : m.msgType = "ai"
    · rw [if_pos hm, h m (List.mem_cons_self _ _) hm]
      exact ih fun x hx => h x (List.mem_cons_of_mem _ hx)
    · rw [if_neg hm]
      exact ih fun x hx => h x (List.mem_cons_of_mem _ hx)

/-- C5: once the cache holds an extraction, a reconciled-list update in which
no assistant message yields an extraction leaves the cached extraction
unchanged; no update whatsoever clears a populated cache — only the
session-key change effect writes the cleared value. -/
theorem qa_cache_persistence (c : ParsedQA) (msgs : List ChatMessage)
    (h : ∀ m ∈ msgs, m.msgType = "ai" →
      parseQAPairsFromContent m.content m.name = none) :
    updateCachedQAPairs (some c) (detectQAPairs msgs) = some c ∧
    (∀ d : Option ParsedQA, updateCachedQAPairs (some c) d ≠ none) ∧
    clearedQACache = none := by
  refine ⟨?_, ?_, rfl⟩
  · rw [detectQAPairs,
      detectQAPairsAux_eq_none fun m hm => h m (List.mem_reverse.mp hm)]
    rfl
  · intro d
    cases d <;> simp [updateCachedQAPairs]

/-- Witness for C5: a populated cache survives the reconciled list consisting
of one ai message that carries no Q/A block. -/
theorem qa_cache_persistence_witness :
    updateCachedQAPairs (some ⟨[⟨"Q?", "A"⟩], .buyer, .full⟩)
        (detectQAPairs [⟨some "1", "ai", "hello", none⟩]) =
      some ⟨[⟨"Q?", "A"⟩], .buyer, .full⟩ :=
  (qa_cache_persistence ⟨[⟨"Q?", "A"⟩], .buyer, .full⟩
      [⟨some "1", "ai", "hello", none⟩] (by decide)).1

/-- C6 counterexample: fullTeaserText contains a full-mode header, a
parseable numbered entry and a teaser-mode header; the extractor returns the
disclosed-mode result — but its only item carries an empty answer, because
the captured answer text is blank after trimming, so not every item of a
disclosed-mode result carries a populated answer. -/
theorem full_mode_empty_answer_counterexample :
    (searchFullHeader (qaContentOf fullTeaserText)).isSome = true ∧
    qaPairsOf (qaContentOf fullTeaserText) ≠ [] ∧
    (searchTeaserHeader fullTeaserText.toList).isSome = true ∧
    parseQAPairsFromContent fullTeaserText none =
      some ⟨[⟨"Q?", ""⟩], .buyer, .full⟩ := by
  decide

/-- C6 (amended): for every input text in which the full-mode header matches
and at least one numbered entry is parsed, and which also contains a
teaser-mode header, the extractor returns the disclosed-mode result — mode
full, items exactly the parsed entries, whose answers are the trimmed
captured text and may be empty — and never the teaser-mode result: the
full-mode pattern is checked first and the teaser-mode pattern is not
attempted. -/
theorem full_mode_precedence (content : String) (hint : Option String)
    (hfull : (searchFullHeader (qaContentOf content)).isSome = true)
    (hitems : qaPairsOf (qaContentOf content) ≠ [])
    (_hteaser : (searchTeaserHeader content.toList).isSome = true) :
    ∃ r, parseQAPairsFromContent content hint = some r ∧
      r.mode = .full ∧ r.qaPairs = qaPairsOf (qaContentOf content) := by
  simp only [parseQAPairsFromContent]
  cases hsf : searchFullHeader (qaContentOf content) with
  | none => rw [hsf] at hfull; simp at hfull
  | some captured =>
    dsimp only
    rw [if_neg (by simpa [List.isEmpty_iff] using hitems)]
    exact ⟨_, rfl, rfl, rfl⟩

/-- Witness for C6 (amended): the theorem instantiated on fullTeaserText. -/
theorem full_mode_precedence_witness :
    ∃ r, parseQAPairsFromContent fullTeaserText none = some r ∧
      r.mode = .full ∧ r.qaPairs = qaPairsOf (qaContentOf fullTeaserText) :=
  full_mode_precedence fullTeaserText none (by decide) (by decide)
    (by decide)

/-- C7 counterexample: on the addendum-isolation example text, the splitter
does return the trimmed addendum, but the Q/A extractor returns none rather
than one QAItem: the prefix before the split point contains a numbered entry
yet neither header, and the entry loops run only under a header match. -/
theorem addendum_extraction_counterexample :
    extractCounterpartyMessage addendumText =
      some "the counterparty has answered your question: X" ∧
    parseQAPairsFromContent addendumText none = none := by
  decide

/-- C7 (amended): on the example text the splitter returns exactly the
trimmed addendum segment, extraction operates only on the portion preceding
the split point, whose single numbered entry the entry pattern does parse as
(Q?, A) — but the extractor returns none on the message because that portion
carries no disclosed- or teaser-mode header; and for any text whose last
two-newline-separated segment does not begin with the marker phrase after
trimming, the splitter returns none. -/
theorem addendum_splitter_spec :
    extractCounterpartyMessage addendumText =
      some "the counterparty has answered your question: X" ∧
    qaContentOf addendumText = "**1. Q?**\nA".toList ∧
    qaPairsOf (qaContentOf addendumText) = [⟨"Q?", "A"⟩] ∧
    parseQAPairsFromContent addendumText none = none ∧
    ∀ content : String,
      startsWithCI cpMarker (jsTrim (lastSegmentOf content)) = false →
      extractCounterpartyMessage content = none := by
  refine ⟨by decide, by decide, by decide, by decide, ?_⟩
  intro content h
  simp only [extractCounterpartyMessage]
  by_cases hc : containsLitCI ('\n' :: '\n' :: cpMarker) content.toList = true
  · rw [if_pos hc]
    cases hpos : lastDoubleNewlinePos content.toList with
    | none => rfl
    | some i =>
      simp only [String.toList] at hpos
      simp only [lastSegmentOf, String.toList, hpos] at h
      simp [h, String.toList]
  · rw [if_neg hc]

/-- Witness for C7 (amended): the splitter returns none on a text whose last
segment does not begin with the marker phrase. -/
theorem addendum_splitter_spec_witness :
    extractCounterpartyMessage "hello\n\nworld" = none :=
  addendum_splitter_spec.2.2.2.2 "hello\n\nworld" (by decide)

/-- C8: whenever a header matches but its entry loop parses zero numbered
entries, the extractor returns none — not an extraction with an empty item
list — in the full-mode branch as in the teaser-mode branch, so the text is
treated as ordinary message content. -/
theorem header_without_entries_yields_none (content : String)
    (hint : Option String) :
    ((searchFullHeader (qaContentOf content)).isSome = true →
      qaPairsOf (qaContentOf content) = [] →
      parseQAPairsFromContent content hint = none) ∧
    (searchFullHeader (qaContentOf content) = none →
      (searchTeaserHeader (qaContentOf content)).isSome = true →
      questionsOf (qaContentOf content) = [] →
      parseQAPairsFromContent content hint = none) := by
  constructor
  · intro hf he
    simp only [parseQAPairsFromContent]
    cases hsf : searchFullHeader (qaContentOf content) with
    | none => rw [hsf] at hf; simp at hf
    | some captured => simp [he]
  · intro hf ht he
    simp only [parseQAPairsFromContent]
    rw [hf]
    cases hst : searchTeaserHeader (qaContentOf content) with
    | none => rfl
    | some captured => simp [he]

/-- Witness for C8: a bare full-mode header and a bare teaser-mode header
each yield none. -/
theorem header_without_entries_yields_none_witness :
    parseQAPairsFromContent
        "here are 2 vetting answers from the matched buyer:" none = none ∧
    parseQAPairsFromContent
        "The matched seller has answered 3 vetting questions." none =
      none :=
  ⟨(header_without_entries_yields_none
        "here are 2 vetting answers from the matched buyer:" none).1
      (by decide) (by decide),
   (header_without_entries_yields_none
        "The matched seller has answered 3 vetting questions." none).2
      (by decide) (by decide) (by decide)⟩

/-- C10: an assistant message whose content trims to the empty string, or
trims and lowercases to the literal null, is withheld entirely by the
transcript renderer. -/
theorem empty_or_null_assistant_hidden (m : ChatMessage)
    (h : jsTrimLower m.content = "" ∨ jsTrimLower m.content = "null") :
    renderAssistantMessage m = .hidden := by
  unfold renderAssistantMessage
  by_cases ht : m.msgType = "tool"
  · rw [if_pos ht]
  · rw [if_neg ht, if_pos h]

/-- Witness for C10: a whitespace-padded NULL content is withheld. -/
theorem empty_or_null_assistant_hidden_witness :
    renderAssistantMessage ⟨some "x", "ai", "  NULL ", none⟩ =
      .hidden :=
  empty_or_null_assistant_hidden ⟨some "x", "ai", "  NULL ", none⟩
    (by decide)

end AgentChat
